import Mathlib

set_option maxRecDepth 4000

/-
Verification of the Verum Omnis evidentiary record store and the local
contradiction-detection engine (services/forensicService.ts).

The TypeScript source is shallowly embedded:
  * IndexedDB object stores become Lean lists; `store.put` becomes a
    replace-or-append update keyed by `id`; `new Map(list)` lookups become
    a last-entry-wins lookup (later insertions overwrite earlier ones).
  * `crypto.randomUUID()` and `new Date()` become explicit parameters of the
    operations (the generated id and the current time in milliseconds).
  * JS strings become `String`/`List Char`; the two regular expressions of
    the engine are embedded as direct backtracking scanners with the same
    alternation order and boundary semantics as the source patterns.
  * `new Date(str) > createdAt` becomes integer comparison of epoch
    milliseconds, with calendar arithmetic done by the standard
    days-from-civil conversion (the model renders and parses dates in UTC).
  * The random shuffles of runContradictionAnalysis become explicit pass
    inputs: the function takes the (reports, evidence) pair seen by each of
    the three passes, and theorems quantify over permutations of the input.
-/

/-! ## Character and string utilities -/

/-- JS regex word character class `\w` = `[A-Za-z0-9_]` (ASCII). -/
def isWordChar (c : Char) : Bool :=
  c.isAlpha || c.isDigit || c == '_'

/-- JS regex whitespace class `\s` (modelled on the ASCII part of the class;
the Unicode space characters of the full class do not occur in the inputs
considered here, other than NBSP which we include). -/
def isJsSpace (c : Char) : Bool :=
  c == ' ' || c == '\t' || c == '\n' || c == '\r' ||
  c == (Char.ofNat 11) || c == (Char.ofNat 12) || c == (Char.ofNat 160)

/-- `listStartsWith needle s` is true when `needle` begins `s`. -/
def listStartsWith : List Char → List Char → Bool
  | [], _ => true
  | _ :: _, [] => false
  | a :: as, b :: bs => a == b && listStartsWith as bs

/-- JS `haystack.includes(needle)` on strings: substring containment. -/
def containsSub (needle : List Char) : List Char → Bool
  | [] => needle.isEmpty
  | s@(_ :: t) => listStartsWith needle s || containsSub needle t

/-- JS `String.prototype.toLowerCase` (ASCII model). -/
def lowerName (s : String) : List Char :=
  s.toList.map Char.toLower

/-- JS `name.replace(/\.[^/.]+$/, "")`: drop a final `.ext` where the
extension is nonempty and contains neither `.` nor `/`. -/
def stripExt (l : List Char) : List Char :=
  let r := l.reverse
  let ext := r.takeWhile (fun c => !(c == '.') && !(c == '/'))
  match r.drop ext.length with
  | '.' :: base => if ext.isEmpty then l else base.reverse
  | _ => l

/-- Lexicographic `≤` on char lists: the order JS `Array.prototype.sort`
uses on (ASCII) strings. -/
def charListLe : List Char → List Char → Bool
  | [], _ => true
  | _ :: _, [] => false
  | a :: as, b :: bs => if a < b then true else if a = b then charListLe as bs else false

/-- String comparison used by the default JS sort on the id arrays. -/
def strLe (a b : String) : Bool :=
  charListLe a.toList b.toList

/-- Ordered insertion for `sortStrings`. -/
def insertStr (x : String) : List String → List String
  | [] => [x]
  | y :: ys => if strLe x y then x :: y :: ys else y :: insertStr x ys

/-- JS `[...sources].sort()` on a string array (insertion sort; agrees with
any sort for the lexicographic order since equal keys are equal strings). -/
def sortStrings (l : List String) : List String :=
  l.foldr insertStr []

/-! ## Calendar arithmetic (JS `Date` model, UTC)

`new Date("M/D/YYYY")` is modelled as midnight of that civil date, converted
to epoch days by the standard days-from-civil algorithm; this reproduces the
JS rollover of out-of-range days (e.g. `2/30/2023` is March 2 2023). -/

/-- Epoch day number of a civil date (proleptic Gregorian). -/
def daysFromCivil (y m d : Int) : Int :=
  let y1 := y - (if m ≤ 2 then 1 else 0)
  let era := y1.fdiv 400
  let yoe := y1 - era * 400
  let mp := (m + 9).emod 12
  let doy := (153 * mp + 2).fdiv 5 + d - 1
  let doe := yoe * 365 + yoe.fdiv 4 - yoe.fdiv 100 + doy
  era * 146097 + doe - 719468

/-- Civil date (y, m, d) of an epoch day number. -/
def civilFromDays (z0 : Int) : Int × Int × Int :=
  let z := z0 + 719468
  let era := z.fdiv 146097
  let doe := z - era * 146097
  let yoe := (doe - doe.fdiv 1460 + doe.fdiv 36524 - doe.fdiv 146096).fdiv 365
  let y := yoe + era * 400
  let doy := doe - (365 * yoe + yoe.fdiv 4 - yoe.fdiv 100)
  let mp := (5 * doy + 2).fdiv 153
  let d := doy - (153 * mp + 2).fdiv 5 + 1
  let m := mp + (if mp < 10 then 3 else -9)
  (if m ≤ 2 then y + 1 else y, m, d)

/-- Epoch milliseconds of `new Date("m/d/y")` for a matched date string. -/
def jsDateMs (md : Nat × Nat × Nat) : Int :=
  daysFromCivil (Int.ofNat md.2.2) (Int.ofNat md.1) (Int.ofNat md.2.1) * 86400000

/-- `Date.prototype.toLocaleDateString` (en-US, "M/D/YYYY") of an epoch-ms
timestamp. -/
def renderDateMs (ms : Int) : String :=
  let c := civilFromDays (ms.fdiv 86400000)
  toString c.2.1 ++ "/" ++ toString c.2.2 ++ "/" ++ toString c.1

/-! ## Data model (types.ts) -/

/-- An entry of `Report.evidenceRefs`. -/
structure EvidenceRef where
  id : String
  sha512 : String
deriving DecidableEq, Repr

/-- Evidence record (types.ts). `blob` holds the raw bytes; the EXIF `meta`
map is omitted as unreferenced payload. `createdAt` is epoch ms. -/
structure Evidence where
  id : String
  name : String
  size : Nat
  type : String
  blob : List Nat := []
  sha512 : String
  createdAt : Int
  jurisdiction : String := "Global"
  timezone : String := "UTC"
  ocrText : Option String := none
deriving DecidableEq, Repr

/-- Finding record (types.ts); `verification` is the tier label string. -/
structure Finding where
  title : String
  trigger : String
  source : String
  rationale : String
  verification : Option String := none
deriving DecidableEq, Repr

/-- The `type` discriminator of a Contradiction (types.ts union). -/
inductive ContradictionType where
  | direct
  | metadata_mismatch
  | cross_doc_drift
  | omission
deriving DecidableEq, Repr

/-- The string value the source stores in the `type` field. -/
def ctypeStr : ContradictionType → String
  | .direct => "direct"
  | .metadata_mismatch => "metadata_mismatch"
  | .cross_doc_drift => "cross_doc_drift"
  | .omission => "omission"

/-- `Omit<Contradiction, 'verification'>`: what a single detector pass emits. -/
structure RawContradiction where
  type : ContradictionType
  actor : Option String := none
  claimA : Option String := none
  claimB : Option String := none
  sources : List String
  explanation : String
deriving DecidableEq, Repr

/-- Full contradiction record carrying its verification tier string. -/
structure Contradiction extends RawContradiction where
  verification : String
deriving DecidableEq, Repr

/-- Timeline event (types.ts). -/
structure TimelineEvent where
  date : String
  event : String
  sources : List String
deriving DecidableEq, Repr

/-- Report record (types.ts); `createdAt`/`updatedAt` are epoch ms. The
optional `pdfSha512`/`rawHtmlReport`/`highlights` payload is omitted. -/
structure Report where
  id : String
  title : String
  chapterIndex : Nat
  createdAt : Int
  updatedAt : Int
  jurisdiction : String
  timezone : String
  evidenceRefs : List EvidenceRef
  findings : List Finding := []
  contradictions : List Contradiction := []
  timeline : List TimelineEvent := []
deriving DecidableEq, Repr

/-- The singleton `meta` record `{ key: 'reports_index', order, lastChapterIndex }`. -/
structure ReportsIndexMeta where
  order : List String
  lastChapterIndex : Nat
deriving DecidableEq, Repr

/-- The fields of `saveReport`'s argument
(`Omit<Report, 'id' | 'createdAt' | 'updatedAt' | 'chapterIndex'>`). -/
structure ReportDraft where
  title : String
  jurisdiction : String
  timezone : String
  evidenceRefs : List EvidenceRef
  findings : List Finding := []
  contradictions : List Contradiction := []
  timeline : List TimelineEvent := []
deriving DecidableEq, Repr

/-! ## ContentFingerprinter (calculateSHA512) -/

/-- Lowercase hex digit, as produced by JS `b.toString(16)`. -/
def hexChar (n : Nat) : Char :=
  if n < 10 then Char.ofNat (48 + n) else Char.ofNat (87 + n)

/-- JS `b.toString(16).padStart(2, '0')` for a byte value `b < 256`. -/
def byteToHex (b : Nat) : List Char :=
  [hexChar (b / 16), hexChar (b % 16)]

/-- Modelled from the spec: `crypto.subtle.digest('SHA-512', buffer)` is a
platform primitive absent from the repository; the spec requires only that
it is a pure function of the bytes returning a 512-bit (64-byte) digest.
It is therefore a parameter constrained by `IsSHA512Digest`. -/
def IsSHA512Digest (digestFn : List Nat → List Nat) : Prop :=
  ∀ bs, (digestFn bs).length = 64 ∧ ∀ b ∈ digestFn bs, b < 256

/-- `calculateSHA512`: digest the bytes and hex-encode the 64 result bytes
(`hashArray.map(b => b.toString(16).padStart(2, '0')).join('')`). -/
def calculateSHA512 (digestFn : List Nat → List Nat) (bytes : List Nat) : String :=
  String.mk ((digestFn bytes).map byteToHex).flatten

/-- A character of a lowercase hexadecimal rendering. -/
def isLowerHexChar (c : Char) : Bool :=
  ('0' ≤ c && c ≤ '9') || ('a' ≤ c && c ≤ 'f')

/-! ## EvidenceStore / ReportLedger (IndexedDB layer) -/

/-- Last-entry-wins lookup: the semantics of `new Map(list.map(x => [x.id, x])).get(id)`
and of reading an IndexedDB store keyed on `id`. -/
def lookupLastBy (getId : α → String) : List α → String → Option α
  | [], _ => none
  | x :: rest, i =>
    match lookupLastBy getId rest i with
    | some r => some r
    | none => if getId x == i then some x else none

/-- IndexedDB `store.put`: overwrite the record with the same key, else insert. -/
def putBy (getId : α → String) (l : List α) (x : α) : List α :=
  if l.any (fun y => getId y == getId x) then
    l.map (fun y => if getId y == getId x then x else y)
  else l ++ [x]

/-- The three collections of `verum_db`: `evidence`, `reports`, and the
`meta` store holding at most the single `reports_index` record. -/
structure VerumStore where
  evidence : List Evidence
  reports : List Report
  meta : Option ReportsIndexMeta
deriving DecidableEq, Repr

/-- A freshly opened (or cleared) database. -/
def emptyStore : VerumStore := ⟨[], [], none⟩

/-- The full report `saveReport` constructs from the draft, the generated
uuid, the current time and the next chapter index. -/
def mkFullReport (newId : String) (now : Int) (draft : ReportDraft)
    (chapter : Nat) : Report :=
  { id := newId, title := draft.title, chapterIndex := chapter,
    createdAt := now, updatedAt := now, jurisdiction := draft.jurisdiction,
    timezone := draft.timezone, evidenceRefs := draft.evidenceRefs,
    findings := draft.findings, contradictions := draft.contradictions,
    timeline := draft.timeline }

/-- `saveReport`: read the index (defaulting to `{order: [], lastChapterIndex: 0}`),
advance the chapter counter, append the new id to the order list, and put the
full report. `newId` is the `crypto.randomUUID()` result and `now` the
`new Date()` timestamp of the call. -/
def saveReport (s : VerumStore) (newId : String) (now : Int)
    (draft : ReportDraft) : VerumStore × Report :=
  let m := s.meta.getD ⟨[], 0⟩
  let nextChapterIndex := m.lastChapterIndex + 1
  let fullReport := mkFullReport newId now draft nextChapterIndex
  ({ s with
      meta := some ⟨m.order ++ [newId], nextChapterIndex⟩,
      reports := putBy Report.id s.reports fullReport },
   fullReport)

/-- A sequence of `saveReport` calls; each call supplies its generated id,
its timestamp, and its draft. -/
def saveReports (s : VerumStore) : List (String × Int × ReportDraft) → VerumStore
  | [] => s
  | (i, now, d) :: rest => saveReports (saveReport s i now d).1 rest

/-- `updateEvidence`: full-record `put` keyed by the argument's id. -/
def updateEvidence (s : VerumStore) (ev : Evidence) : VerumStore :=
  { s with evidence := putBy Evidence.id s.evidence ev }

/-- `getEvidenceById`. -/
def getEvidenceById (s : VerumStore) (i : String) : Option Evidence :=
  lookupLastBy Evidence.id s.evidence i

/-- The order list of the index record, `metaReq.result?.order ?? []`. -/
def indexOrderOf (s : VerumStore) : List String :=
  (s.meta.map ReportsIndexMeta.order).getD []

/-- `getAllReportsIndexed`: reports resolved through the order list (missing
ids dropped by `.filter(Boolean)`), evidence restricted to the ids referenced
by the returned reports. -/
def getAllReportsIndexed (s : VerumStore) : List Report × List Evidence :=
  let reports := (indexOrderOf s).filterMap (lookupLastBy Report.id s.reports)
  let evidenceIds := reports.flatMap (fun r => r.evidenceRefs.map EvidenceRef.id)
  (reports, s.evidence.filter (fun e => evidenceIds.any (fun i => i == e.id)))

/-! ## Date scanner

Embeds `/\b(0?[1-9]|1[0-2])\/(0?[1-9]|[12][0-9]|3[01])\/\d{4}\b/g` with the
regex's alternation order and backtracking. -/

/-- Digit value of an ASCII digit character. -/
def digitVal (c : Char) : Nat := c.toNat - 48

/-- Candidates for `(0?[1-9]|1[0-2])` at the head of `s`, in the order the
regex engine tries them: `0` + nonzero digit, bare nonzero digit, then `1[0-2]`. -/
def monthCands (s : List Char) : List (Nat × List Char) :=
  (match s with
   | '0' :: d :: r => if '1' ≤ d && d ≤ '9' then [(digitVal d, r)] else []
   | _ => []) ++
  (match s with
   | d :: r => if '1' ≤ d && d ≤ '9' then [(digitVal d, r)] else []
   | _ => []) ++
  (match s with
   | '1' :: d :: r => if '0' ≤ d && d ≤ '2' then [(10 + digitVal d, r)] else []
   | _ => [])

/-- Candidates for `(0?[1-9]|[12][0-9]|3[01])`, in regex order. -/
def dayCands (s : List Char) : List (Nat × List Char) :=
  (match s with
   | '0' :: d :: r => if '1' ≤ d && d ≤ '9' then [(digitVal d, r)] else []
   | _ => []) ++
  (match s with
   | d :: r => if '1' ≤ d && d ≤ '9' then [(digitVal d, r)] else []
   | _ => []) ++
  (match s with
   | a :: d :: r =>
     if (a == '1' || a == '2') && d.isDigit then [(10 * digitVal a + digitVal d, r)] else []
   | _ => []) ++
  (match s with
   | '3' :: d :: r => if d == '0' || d == '1' then [(30 + digitVal d, r)] else []
   | _ => [])

/-- `\d{4}`: exactly four digits. -/
def yearAt : List Char → Option (Nat × List Char)
  | a :: b :: c :: d :: r =>
    if a.isDigit && b.isDigit && c.isDigit && d.isDigit then
      some (((digitVal a * 10 + digitVal b) * 10 + digitVal c) * 10 + digitVal d, r)
    else none
  | _ => none

/-- Trailing `\b` after the year: next char absent or not a word char. -/
def boundaryOk : List Char → Bool
  | [] => true
  | c :: _ => !isWordChar c

/-- Attempt the full date pattern at the current position; returns the
parsed (month, day, year) and the remaining input. -/
def matchDateAt (s : List Char) : Option ((Nat × Nat × Nat) × List Char) :=
  (monthCands s).findSome? fun mc =>
    match mc.2 with
    | '/' :: r2 =>
      (dayCands r2).findSome? fun dc =>
        match dc.2 with
        | '/' :: r4 =>
          match yearAt r4 with
          | some (y, r5) => if boundaryOk r5 then some ((mc.1, dc.1, y), r5) else none
          | none => none
        | _ => none
    | _ => none

/-- Global scan: at each position with a word boundary before it, try the
pattern; on success continue after the match, else advance one character.
`fuel` bounds the recursion (every step consumes input). -/
def scanDates : Nat → Bool → List Char → List (Nat × Nat × Nat)
  | 0, _, _ => []
  | _ + 1, _, [] => []
  | fuel + 1, prevWord, c :: rest =>
      if !prevWord then
        match matchDateAt (c :: rest) with
        | some (t, r5) => t :: scanDates fuel true r5
        | none => scanDates fuel (isWordChar c) rest
      else scanDates fuel (isWordChar c) rest

/-- `text.match(dateRegex)`, with each matched substring parsed the way
`new Date(dateStr)` parses it: as (month, day, year). -/
def extractDates (t : String) : List (Nat × Nat × Nat) :=
  scanDates (t.toList.length + 1) false t.toList

/-! ## Omission scanner

Embeds `/(see|ref|reference|attachment|exhibit)\s+([A-Z0-9-]{1,10})/gi`. -/

/-- Case-insensitive literal match; returns the rest of the input. -/
def matchLit : List Char → List Char → Option (List Char)
  | [], s => some s
  | _ :: _, [] => none
  | a :: as, b :: bs => if a == b.toLower then matchLit as bs else none

/-- The capture class `[A-Z0-9-]` under the `i` flag. -/
def tokChar (c : Char) : Bool :=
  c.isAlpha || c.isDigit || c == '-'

/-- The alternation, in regex order. -/
def refWords : List (List Char) :=
  [['s','e','e'], ['r','e','f'],
   ['r','e','f','e','r','e','n','c','e'],
   ['a','t','t','a','c','h','m','e','n','t'],
   ['e','x','h','i','b','i','t']]

/-- Attempt the omission pattern at the current position; returns the
captured token (original case, at most 10 chars) and the rest. -/
def matchRefAt (s : List Char) : Option (List Char × List Char) :=
  refWords.findSome? fun lit =>
    match matchLit lit s with
    | none => none
    | some r1 =>
      let sp := r1.takeWhile isJsSpace
      if sp.isEmpty then none
      else
        let afterSp := r1.drop sp.length
        let tok := (afterSp.takeWhile tokChar).take 10
        if tok.isEmpty then none else some (tok, afterSp.drop tok.length)

/-- Global scan for exhibit references (`regex.exec` loop). -/
def scanRefs : Nat → List Char → List (List Char)
  | 0, _ => []
  | _ + 1, [] => []
  | fuel + 1, c :: rest =>
      match matchRefAt (c :: rest) with
      | some (tok, r) => tok :: scanRefs fuel r
      | none => scanRefs fuel rest

/-- All captured reference tokens of a text. -/
def extractRefs (t : String) : List (List Char) :=
  scanRefs (t.toList.length + 1) t.toList

/-! ## Contradiction Engine (analyzeContradictionsOnce) -/

/-- Append an evidence record to the scope unless an entry with its id is
already present (`!allEvidenceInScope.some(e => e.id === ev.id)`). -/
def addToScope (acc : List Evidence) (ev : Evidence) : List Evidence :=
  if acc.any (fun e => e.id == ev.id) then acc else acc ++ [ev]

/-- Resolve one report's `evidenceRefs` against the evidence map and add the
hits to the scope. -/
def addRefs (evidenceList : List Evidence) (acc : List Evidence)
    (refs : List EvidenceRef) : List Evidence :=
  refs.foldl
    (fun a ref =>
      match lookupLastBy Evidence.id evidenceList ref.id with
      | some ev => addToScope a ev
      | none => a)
    acc

/-- `allEvidenceInScope`: the unique evidence records referenced by the
reports, in first-reference order. -/
def scopeOf (reports : List Report) (evidenceList : List Evidence) : List Evidence :=
  reports.foldl (fun acc r => addRefs evidenceList acc r.evidenceRefs) []

/-- The filter selecting `textEvidence`:
`e.ocrText && e.ocrText.trim().length > 0`. -/
def hasText (e : Evidence) : Bool :=
  match e.ocrText with
  | some t => t.toList.any (fun c => !isJsSpace c)
  | none => false

/-- Normalized file name: `name.toLowerCase().replace(/\.[^/.]+$/, "")`. -/
def normName (e : Evidence) : List Char :=
  stripExt (lowerName e.name)

/-- The guard of the cross-document-drift rule:
`(nameA.includes(nameB) || nameB.includes(nameA)) && nameA !== nameB && evA.sha512 !== evB.sha512`. -/
def driftCond (a b : Evidence) : Bool :=
  (containsSub (normName b) (normName a) || containsSub (normName a) (normName b)) &&
  !(normName a == normName b) && !(a.sha512 == b.sha512)

/-- The cross-document-drift record pushed for the pair `(a, b)`. -/
def mkDrift (a b : Evidence) : RawContradiction :=
  { type := .cross_doc_drift,
    claimA := some ("Evidence named \"" ++ a.name ++ "\""),
    claimB := some ("Evidence named \"" ++ b.name ++ "\""),
    sources := [a.id, b.id],
    explanation := "Two files with similar names ('" ++ a.name ++ "', '" ++ b.name ++
      "') have different content hashes, indicating a possible version mismatch or alteration." }

/-- One iteration of the inner pair loop. -/
def driftPair (a b : Evidence) : Option RawContradiction :=
  if driftCond a b then some (mkDrift a b) else none

/-- The double loop `for i ... for j = i+1 ...` over the scope. -/
def driftPairs : List Evidence → List RawContradiction
  | [] => []
  | a :: rest => rest.filterMap (driftPair a) ++ driftPairs rest

/-- The metadata-mismatch record for evidence `e` and a mentioned date. -/
def mkMetadataMismatch (e : Evidence) (md : Nat × Nat × Nat) : RawContradiction :=
  { type := .metadata_mismatch,
    sources := [e.id],
    explanation := "The document content mentions a future date (" ++
      renderDateMs (jsDateMs md) ++ ") relative to its creation date (" ++
      renderDateMs e.createdAt ++ ").",
    claimA := some ("File created: " ++ renderDateMs e.createdAt),
    claimB := some ("Content mentions: " ++ renderDateMs (jsDateMs md)) }

/-- The metadata-mismatch rule: one record per matched date strictly after
the evidence's creation timestamp. -/
def metadataContrs (e : Evidence) : List RawContradiction :=
  (extractDates (e.ocrText.getD "")).filterMap fun md =>
    if e.createdAt < jsDateMs md then some (mkMetadataMismatch e md) else none

/-- The omission record for evidence `e` and an unresolved reference token. -/
def mkOmission (e : Evidence) (tok : List Char) : RawContradiction :=
  { type := .omission,
    sources := [e.id],
    explanation := "Document \"" ++ e.name ++ "\" references an exhibit or attachment \"" ++
      String.mk tok ++ "\" which was not found in the provided evidence set.",
    claimA := some ("Reference to \"" ++ String.mk tok ++ "\""),
    claimB := some "Evidence not provided" }

/-- The omission rule: a record per captured reference token whose lowercase
form is contained in no in-scope evidence name. -/
def omissionContrs (scope : List Evidence) (e : Evidence) : List RawContradiction :=
  (extractRefs (e.ocrText.getD "")).filterMap fun tok =>
    if scope.any (fun ev => containsSub (tok.map Char.toLower) (lowerName ev.name)) then
      none
    else some (mkOmission e tok)

/-- `analyzeContradictionsOnce`: the drift pair loop followed by, for each
text-bearing evidence, the metadata-mismatch and omission rules. -/
def analyzeContradictionsOnce (reports : List Report)
    (evidenceList : List Evidence) : List RawContradiction :=
  let scope := scopeOf reports evidenceList
  let textEvidence := scope.filter hasText
  driftPairs scope ++
    textEvidence.flatMap (fun e => metadataContrs e ++ omissionContrs scope e)

/-! ## Reduction and consensus (runContradictionAnalysis) -/

/-- The stable de-duplication key:
`` `${c.type}-${[...c.sources].sort().join('-')}-${c.explanation}` ``. -/
def keyOf (c : RawContradiction) : String :=
  ctypeStr c.type ++ "-" ++ String.intercalate "-" (sortStrings c.sources) ++
    "-" ++ c.explanation

/-- The verification tier assigned to an occurrence count
(`count >= 3` verified, `count === 2` consensus, otherwise inconclusive). -/
def classifyTier (count : Nat) : String :=
  if count ≥ 3 then "Verified (3/3)"
  else if count = 2 then "Consensus (2/3)"
  else "Inconclusive (≤1/3)"

/-- First occurrence per key, in order: the contents of the insertion-ordered
`contradictionCounts` map. -/
def dedupFirstAux (seen : List String) :
    List (String × RawContradiction) → List (String × RawContradiction)
  | [] => []
  | (k, c) :: rest =>
    if seen.contains k then dedupFirstAux seen rest
    else (k, c) :: dedupFirstAux (k :: seen) rest

/-- Reduce the raw contradictions of all passes: one output record per
distinct key (first occurrence's fields), tier from the total count. -/
def reduceContradictions (all : List RawContradiction) : List Contradiction :=
  let keyed := all.map (fun c => (keyOf c, c))
  (dedupFirstAux [] keyed).map fun kc =>
    ⟨kc.2, classifyTier (keyed.countP (fun p => p.1 == kc.1))⟩

/-- `runContradictionAnalysis`: three passes over shuffled inputs, then the
consensus reduction. Each `(rᵢ, eᵢ)` is the (randomly reordered) input the
i-th pass received; in the source these are `shuffle(reports)` and
`shuffle(evidence)`. -/
def runContradictionAnalysis (r1 : List Report) (e1 : List Evidence)
    (r2 : List Report) (e2 : List Evidence)
    (r3 : List Report) (e3 : List Evidence) : List Contradiction :=
  reduceContradictions
    (analyzeContradictionsOnce r1 e1 ++ analyzeContradictionsOnce r2 e2 ++
      analyzeContradictionsOnce r3 e3)

/-! ## Derived definitions and concrete fixtures used by the theorems -/

/-- The index record as `saveReport` reads it (defaulting when absent). -/
def metaOf (s : VerumStore) : ReportsIndexMeta :=
  s.meta.getD ⟨[], 0⟩

/-- The reports a sequence of `saveReport` calls creates, starting from
chapter counter `L`. -/
def buildReports (L : Nat) : List (String × Int × ReportDraft) → List Report
  | [] => []
  | (i, now, d) :: rest => mkFullReport i now d (L + 1) :: buildReports (L + 1) rest

/-- A constant digest function satisfying the spec's shape constraints, used
to witness the fingerprinter theorem. -/
def constDigest : List Nat → List Nat := fun _ => List.replicate 64 0

/-- A minimal report draft for concrete instances. -/
def mkDraft (t : String) (refs : List EvidenceRef := []) : ReportDraft :=
  { title := t, jurisdiction := "Global", timezone := "UTC", evidenceRefs := refs }

/-- A minimal report value for concrete instances. -/
def mkRep (i : String) (refs : List EvidenceRef) : Report :=
  { id := i, title := i, chapterIndex := 1, createdAt := 0, updatedAt := 0,
    jurisdiction := "Global", timezone := "UTC", evidenceRefs := refs }

/-- A minimal evidence value for concrete instances. -/
def mkEv (i nm sha : String) (txt : Option String := none) : Evidence :=
  { id := i, name := nm, size := 1, type := "application/pdf", sha512 := sha,
    createdAt := 0, ocrText := txt }

/-- Concrete drift pair: same base name, different digests. -/
def evStatement : Evidence := mkEv "a" "statement.pdf" "h1"

/-- Second member of the drift pair. -/
def evStatementV2 : Evidence := mkEv "b" "statement_v2.pdf" "h2"

/-- Variant of `evStatementV2` with the same digest as `evStatement`. -/
def evStatementV2Same : Evidence := mkEv "b" "statement_v2.pdf" "h1"

/-- Report referencing only `evStatement`. -/
def repRefA : Report := mkRep "r1" [⟨"a", "h1"⟩]

/-- Report referencing only `evStatementV2`. -/
def repRefB : Report := mkRep "r2" [⟨"b", "h2"⟩]

/-- Report referencing the whole drift pair. -/
def repRefAB : Report := mkRep "r0" [⟨"a", "h1"⟩, ⟨"b", "h2"⟩]

/-- Evidence whose extracted text mentions a future date (creation time 0). -/
def evNote : Evidence := mkEv "e1" "note.txt" "h3" (some "Note says 12/31/2099")

/-- Report referencing `evNote`. -/
def repNote : Report := mkRep "r3" [⟨"e1", "h3"⟩]

/-- Evidence mentioning the same future date in ISO form. -/
def evIso : Evidence := mkEv "e2" "iso.txt" "h4" (some "Due 2027-03-14 ok")

/-- Evidence mentioning the same future date in word form. -/
def evWords : Evidence := mkEv "e3" "words.txt" "h5" (some "Due 14 March 2027 ok")

/-- Evidence mentioning the future date in the numeric slash form. -/
def evSlash : Evidence := mkEv "e4" "slash.txt" "h6" (some "Due 3/14/2027 ok")

/-- Report referencing `evIso`. -/
def repIso : Report := mkRep "r4" [⟨"e2", "h4"⟩]

/-- Report referencing `evWords`. -/
def repWords : Report := mkRep "r5" [⟨"e3", "h5"⟩]

/-- Report referencing `evSlash`. -/
def repSlash : Report := mkRep "r6" [⟨"e4", "h6"⟩]

/-- Evidence whose slash-form date lies before its creation time. -/
def evPast : Evidence := mkEv "e5" "past.txt" "h7" (some "Due 3/14/1960 ok")

/-- Report referencing `evPast`. -/
def repPast : Report := mkRep "r7" [⟨"e5", "h7"⟩]

/-- The drift-pair evidence collection. -/
def esAB : List Evidence := [evStatement, evStatementV2]

/-- The predicate of C5: a cross-document-drift record whose source list is
exactly the unordered pair `{a, b}`. -/
def isDriftOn (a b : String) (c : RawContradiction) : Bool :=
  c.type == ContradictionType.cross_doc_drift &&
    sortStrings c.sources == sortStrings [a, b]

/-- The predicate of C7: a metadata-mismatch record citing evidence id `i`. -/
def isMetaOn (i : String) (c : RawContradiction) : Bool :=
  c.type == ContradictionType.metadata_mismatch && c.sources == [i]

/-- Whether a record is a cross-document-drift record. -/
def isDriftType (c : RawContradiction) : Bool :=
  c.type == ContradictionType.cross_doc_drift

/-- Whether an extracted date is strictly after a creation timestamp. -/
def isFutureDate (createdAt : Int) (md : Nat × Nat × Nat) : Bool :=
  createdAt < jsDateMs md

/-- Evidence referenced by the indexed demo report. -/
def evX : Evidence := mkEv "e1" "x.pdf" "hx"

/-- Evidence referenced by no indexed report. -/
def evOrphan : Evidence := mkEv "e9" "y.pdf" "hy"

/-- A report present in the demo index. -/
def repIndexed : Report := mkRep "r1" [⟨"e1", "hx"⟩]

/-- A report stored but absent from the demo index. -/
def repOrphan : Report := mkRep "r2" []

/-- Store with an orphaned report and an unreferenced evidence record. -/
def demoStore : VerumStore :=
  ⟨[evX, evOrphan], [repIndexed, repOrphan], some ⟨["r1"], 1⟩⟩

/-! ## Generic helper lemmas -/

theorem countP_filterMap_opt (f : α → Option β) (p : β → Bool) (l : List α) :
    (l.filterMap f).countP p = l.countP (fun a => ((f a).map p).getD false) := by
  induction l with
  | nil => rfl
  | cons x t ih =>
    cases h : f x with
    | none => simp [List.filterMap_cons, h, List.countP_cons, ih]
    | some b => simp [List.filterMap_cons, h, List.countP_cons, ih]

theorem nodup_map_mem_inj {f : α → β} {l : List α} (h : (l.map f).Nodup)
    {a b : α} (ha : a ∈ l) (hb : b ∈ l) (hf : f a = f b) : a = b := by
  induction l with
  | nil => cases ha
  | cons x t ih =>
    simp only [List.map_cons, List.nodup_cons] at h
    rcases List.mem_cons.mp ha with rfl | ha' <;>
      rcases List.mem_cons.mp hb with rfl | hb'
    · rfl
    · exact absurd (hf ▸ List.mem_map_of_mem f hb') h.1
    · exact absurd (hf ▸ List.mem_map_of_mem f ha') h.1
    · exact ih h.2 ha' hb'

/-! ## Sorting lemmas for the de-duplication key -/

theorem charListLe_total : ∀ a b : List Char, charListLe a b = true ∨ charListLe b a = true
  | [], _ => .inl rfl
  | _ :: _, [] => .inr rfl
  | a :: as, b :: bs => by
    rcases lt_trichotomy a b with h | h | h
    · left; simp [charListLe, h]
    · subst h
      rcases charListLe_total as bs with ih | ih
      · left; simp [charListLe, lt_irrefl, ih]
      · right; simp [charListLe, lt_irrefl, ih]
    · right; simp [charListLe, h]

theorem charListLe_antisymm : ∀ {a b : List Char},
    charListLe a b = true → charListLe b a = true → a = b
  | [], [], _, _ => rfl
  | [], _ :: _, _, h => by simp [charListLe] at h
  | _ :: _, [], h, _ => by simp [charListLe] at h
  | a :: as, b :: bs, h1, h2 => by
    simp only [charListLe] at h1 h2
    rcases lt_trichotomy a b with h | h | h
    · rw [if_neg (asymm h), if_neg (ne_of_gt h)] at h2; exact absurd h2 (by simp)
    · subst h
      rw [if_neg (lt_irrefl a), if_pos rfl] at h1 h2
      rw [charListLe_antisymm h1 h2]
    · rw [if_neg (asymm h), if_neg (ne_of_gt h)] at h1; exact absurd h1 (by simp)

theorem strLe_total (a b : String) : strLe a b = true ∨ strLe b a = true :=
  charListLe_total a.toList b.toList

theorem strLe_antisymm {a b : String} (h1 : strLe a b = true) (h2 : strLe b a = true) :
    a = b :=
  String.ext (charListLe_antisymm h1 h2)

theorem sortStrings_pair (p q : String) :
    sortStrings [p, q] = if strLe p q then [p, q] else [q, p] := rfl

/-- Equality of sorted two-element id lists characterizes the unordered pair. -/
theorem sortStrings_pair_eq_iff {a b c d : String} :
    sortStrings [a, b] = sortStrings [c, d] ↔ (a = c ∧ b = d) ∨ (a = d ∧ b = c) := by
  constructor
  · intro h
    rw [sortStrings_pair, sortStrings_pair] at h
    by_cases hab : strLe a b = true <;> by_cases hcd : strLe c d = true <;>
      simp [hab, hcd] at h
    · exact .inl ⟨h.1, h.2⟩
    · exact .inr ⟨h.1, h.2⟩
    · exact .inr ⟨h.2, h.1⟩
    · exact .inl ⟨h.2, h.1⟩
  · rintro (⟨rfl, rfl⟩ | ⟨rfl, rfl⟩)
    · rfl
    · rw [sortStrings_pair, sortStrings_pair]
      rcases strLe_total a b with h | h
      · by_cases h' : strLe b a = true
        · rw [strLe_antisymm h h']
        · simp [h, h']
      · by_cases h' : strLe a b = true
        · rw [strLe_antisymm h' h]
        · simp [h, h']

/-! ## ContentFingerprinter lemmas -/

theorem isLowerHexChar_hexChar {n : Nat} (h : n < 16) :
    isLowerHexChar (hexChar n) = true := by
  revert h
  revert n
  decide

theorem flatten_byteToHex_length (l : List Nat) :
    ((l.map byteToHex).flatten).length = 2 * l.length := by
  induction l with
  | nil => rfl
  | cons b t ih =>
    simp [List.flatten_cons, ih, byteToHex]
    ring

theorem flatten_byteToHex_mem {l : List Nat} (hl : ∀ b ∈ l, b < 256)
    {c : Char} (hc : c ∈ (l.map byteToHex).flatten) : isLowerHexChar c = true := by
  rw [List.mem_flatten] at hc
  obtain ⟨cs, hcs, hmem⟩ := hc
  rw [List.mem_map] at hcs
  obtain ⟨b, hb, rfl⟩ := hcs
  have hb256 := hl b hb
  simp only [byteToHex, List.mem_cons, List.not_mem_nil, or_false] at hmem
  rcases hmem with rfl | rfl
  · exact isLowerHexChar_hexChar (Nat.div_lt_of_lt_mul (by omega))
  · exact isLowerHexChar_hexChar (Nat.mod_lt _ (by omega))

/-- C8. The content fingerprinter is a pure function of the byte sequence and
always yields a 128-character lowercase-hex digest. -/
theorem calculateSHA512_pure_and_hex (digestFn : List Nat → List Nat)
    (hdig : IsSHA512Digest digestFn) (bs1 bs2 : List Nat) (heq : bs1 = bs2) :
    calculateSHA512 digestFn bs1 = calculateSHA512 digestFn bs2 ∧
    (calculateSHA512 digestFn bs1).length = 128 ∧
    ∀ c ∈ (calculateSHA512 digestFn bs1).toList, isLowerHexChar c = true := by
  subst heq
  refine ⟨rfl, ?_, ?_⟩
  · show ((digestFn bs1).map byteToHex).flatten.length = 128
    rw [flatten_byteToHex_length, (hdig bs1).1]
  · intro c hc
    exact flatten_byteToHex_mem (hdig bs1).2 hc

theorem constDigest_spec : IsSHA512Digest constDigest := by
  intro bs
  refine ⟨by simp [constDigest], ?_⟩
  intro b hb
  rw [constDigest, List.mem_replicate] at hb
  omega

/-- Witness for C8 at a concrete digest function and concrete bytes. -/
theorem calculateSHA512_pure_and_hex_witness :
    calculateSHA512 constDigest [1, 2, 3] = calculateSHA512 constDigest [1, 2, 3] ∧
    (calculateSHA512 constDigest [1, 2, 3]).length = 128 ∧
    ∀ c ∈ (calculateSHA512 constDigest [1, 2, 3]).toList, isLowerHexChar c = true :=
  calculateSHA512_pure_and_hex constDigest constDigest_spec [1, 2, 3] [1, 2, 3] rfl

/-! ## ReportLedger lemmas (saveReport) -/

theorem saveReports_meta (calls : List (String × Int × ReportDraft)) :
    ∀ s : VerumStore,
      (metaOf (saveReports s calls)).order =
        (metaOf s).order ++ calls.map (fun c => c.1) ∧
      (metaOf (saveReports s calls)).lastChapterIndex =
        (metaOf s).lastChapterIndex + calls.length := by
  induction calls with
  | nil => intro s; simp [saveReports]
  | cons c rest ih =>
    intro s
    obtain ⟨i, now, d⟩ := c
    obtain ⟨h1, h2⟩ := ih (saveReport s i now d).1
    refine ⟨?_, ?_⟩
    · rw [saveReports, h1]
      simp [saveReport, metaOf]
    · rw [saveReports, h2]
      simp [saveReport, metaOf]
      omega

/-- `store.put` appends when the key is fresh. -/
theorem putBy_append (getId : α → String) {l : List α} {x : α}
    (h : ∀ y ∈ l, getId y ≠ getId x) : putBy getId l x = l ++ [x] := by
  rw [putBy, if_neg]
  simp only [List.any_eq_true, not_exists, not_and]
  intro y hy
  exact fun hb => h y hy (by simpa using hb)

theorem saveReports_reports (calls : List (String × Int × ReportDraft)) :
    ∀ s : VerumStore,
      (calls.map (fun c => c.1)).Nodup →
      (∀ r ∈ s.reports, r.id ∉ calls.map (fun c => c.1)) →
      (saveReports s calls).reports =
        s.reports ++ buildReports (metaOf s).lastChapterIndex calls := by
  induction calls with
  | nil => intro s _ _; simp [saveReports, buildReports]
  | cons c rest ih =>
    intro s hnd hdisj
    obtain ⟨i, now, d⟩ := c
    simp only [List.map_cons, List.nodup_cons] at hnd
    have hput : (saveReport s i now d).1.reports =
        s.reports ++ [mkFullReport i now d ((metaOf s).lastChapterIndex + 1)] := by
      apply putBy_append
      intro y hy
      exact fun h => hdisj y hy (by simp [h, mkFullReport])
    rw [saveReports, ih (saveReport s i now d).1 hnd.2]
    · rw [hput]
      have hmeta : (metaOf (saveReport s i now d).1).lastChapterIndex =
          (metaOf s).lastChapterIndex + 1 := by
        simp [saveReport, metaOf]
      rw [hmeta, buildReports, List.append_assoc]
      rfl
    · intro r hr
      rw [hput, List.mem_append] at hr
      rcases hr with hr | hr
      · intro hmem
        exact hdisj r hr (List.mem_cons_of_mem _ hmem)
      · simp only [List.mem_cons, List.not_mem_nil, or_false] at hr
        subst hr
        simpa [mkFullReport] using hnd.1

theorem buildReports_spec (calls : List (String × Int × ReportDraft)) :
    ∀ L : Nat,
      (buildReports L calls).map (fun r => (r.id, r.chapterIndex)) =
        (calls.map (fun c => c.1)).zip
          ((List.range calls.length).map (fun k => k + L + 1)) := by
  induction calls with
  | nil => intro L; rfl
  | cons c rest ih =>
    intro L
    obtain ⟨i, now, d⟩ := c
    have hmaps : (List.range rest.length).map ((fun k => k + L + 1) ∘ Nat.succ) =
        (List.range rest.length).map (fun k => k + (L + 1) + 1) := by
      apply List.map_congr_left
      intro k _
      simp only [Function.comp, Nat.succ_eq_add_one]
      omega
    simp only [buildReports, List.map_cons, List.length_cons,
      List.range_succ_eq_map, mkFullReport, List.map_map, hmaps, Nat.zero_add,
      List.zip_cons_cons]
    rw [ih (L + 1)]

/-- C1. A sequence of N successful `saveReport` calls from the empty store
yields an order list that is exactly the freshly assigned ids in call order
(each exactly once when the generated uuids are distinct), stored reports
whose chapter indices are exactly 1..N in that same order, and a final
`lastChapterIndex` of N. -/
theorem saveReport_sequence_spec (calls : List (String × Int × ReportDraft))
    (hnd : (calls.map (fun c => c.1)).Nodup) :
    (metaOf (saveReports emptyStore calls)).order = calls.map (fun c => c.1) ∧
    (metaOf (saveReports emptyStore calls)).order.Nodup ∧
    (metaOf (saveReports emptyStore calls)).lastChapterIndex = calls.length ∧
    (saveReports emptyStore calls).reports.map (fun r => (r.id, r.chapterIndex)) =
      (calls.map (fun c => c.1)).zip
        ((List.range calls.length).map (fun k => k + 1)) := by
  obtain ⟨h1, h2⟩ := saveReports_meta calls emptyStore
  have h3 := saveReports_reports calls emptyStore hnd (by intro r hr; cases hr)
  have horder : (metaOf (saveReports emptyStore calls)).order =
      calls.map (fun c => c.1) := by
    rw [h1]; rfl
  refine ⟨horder, horder ▸ hnd, ?_, ?_⟩
  · rw [h2]; simp [metaOf, emptyStore]
  · rw [h3]
    show (buildReports 0 calls).map (fun r => (r.id, r.chapterIndex)) = _
    rw [buildReports_spec calls 0]

/-- Witness for C1: three concrete saves. -/
theorem saveReport_sequence_spec_witness :
    (metaOf (saveReports emptyStore
      [("u1", 5, mkDraft "A"), ("u2", 6, mkDraft "B"), ("u3", 7, mkDraft "C")])).order
        = ["u1", "u2", "u3"] ∧
    (metaOf (saveReports emptyStore
      [("u1", 5, mkDraft "A"), ("u2", 6, mkDraft "B"), ("u3", 7, mkDraft "C")])).order.Nodup ∧
    (metaOf (saveReports emptyStore
      [("u1", 5, mkDraft "A"), ("u2", 6, mkDraft "B"), ("u3", 7, mkDraft "C")])).lastChapterIndex
        = 3 ∧
    (saveReports emptyStore
      [("u1", 5, mkDraft "A"), ("u2", 6, mkDraft "B"), ("u3", 7, mkDraft "C")]).reports.map
        (fun r => (r.id, r.chapterIndex)) = [("u1", 1), ("u2", 2), ("u3", 3)] := by
  have h := saveReport_sequence_spec
    [("u1", 5, mkDraft "A"), ("u2", 6, mkDraft "B"), ("u3", 7, mkDraft "C")] (by decide)
  exact ⟨h.1.trans (by decide), h.2.1, h.2.2.1.trans (by decide),
    h.2.2.2.trans (by decide)⟩

/-! ## Read-path lemmas (getAllReportsIndexed) -/

theorem lookupLastBy_id (getId : α → String) :
    ∀ (l : List α) (i : String) (r : α),
      lookupLastBy getId l i = some r → getId r = i := by
  intro l
  induction l with
  | nil => intro i r h; cases h
  | cons x t ih =>
    intro i r h
    rw [lookupLastBy] at h
    cases ht : lookupLastBy getId t i with
    | some r' =>
      rw [ht] at h
      cases h
      exact ih i r ht
    | none =>
      rw [ht] at h
      by_cases hx : (getId x == i) = true
      · rw [if_pos hx] at h
        cases h
        exact beq_iff_eq.mp hx
      · rw [if_neg hx] at h
        cases h

theorem map_id_filterMap_lookup (R : List Report) :
    ∀ order : List String,
      (order.filterMap (lookupLastBy Report.id R)).map Report.id =
        order.filter (fun i => (lookupLastBy Report.id R i).isSome) := by
  intro order
  induction order with
  | nil => rfl
  | cons i t ih =>
    cases h : lookupLastBy Report.id R i with
    | some r =>
      have := lookupLastBy_id Report.id R i r h
      simp [List.filterMap_cons, List.filter_cons, h, ih, this]
    | none => simp [List.filterMap_cons, List.filter_cons, h, ih]

/-- C4. The read path returns only reports whose ids are in the index order
list (in index order, skipping dangling ids), and only evidence referenced by
at least one returned report. -/
theorem getAllReportsIndexed_spec (s : VerumStore) :
    (∀ r ∈ (getAllReportsIndexed s).1, r.id ∈ indexOrderOf s) ∧
    ((getAllReportsIndexed s).1.map Report.id =
      (indexOrderOf s).filter (fun i => (lookupLastBy Report.id s.reports i).isSome)) ∧
    (∀ e ∈ (getAllReportsIndexed s).2,
      ∃ r ∈ (getAllReportsIndexed s).1, ∃ ref ∈ r.evidenceRefs, ref.id = e.id) := by
  refine ⟨?_, map_id_filterMap_lookup s.reports (indexOrderOf s), ?_⟩
  · intro r hr
    rw [show (getAllReportsIndexed s).1 =
        (indexOrderOf s).filterMap (lookupLastBy Report.id s.reports) from rfl,
      List.mem_filterMap] at hr
    obtain ⟨i, hi, hl⟩ := hr
    rw [lookupLastBy_id Report.id s.reports i r hl]
    exact hi
  · intro e he
    have hmem := List.mem_filter.mp he
    have hany := hmem.2
    rw [List.any_eq_true] at hany
    obtain ⟨i, hi, hieq⟩ := hany
    rw [List.mem_flatMap] at hi
    obtain ⟨r, hr, hir⟩ := hi
    rw [List.mem_map] at hir
    obtain ⟨ref, href, hrefid⟩ := hir
    exact ⟨r, hr, ref, href, hrefid.trans (beq_iff_eq.mp hieq)⟩

/-- Witness for C4 on the demo store with an orphaned report and an
unreferenced evidence record. -/
theorem getAllReportsIndexed_spec_witness :
    repIndexed.id ∈ indexOrderOf demoStore ∧
    (getAllReportsIndexed demoStore).1.map Report.id = ["r1"] ∧
    ∃ r ∈ (getAllReportsIndexed demoStore).1, ∃ ref ∈ r.evidenceRefs, ref.id = evX.id := by
  have h := getAllReportsIndexed_spec demoStore
  exact ⟨h.1 repIndexed (by decide), h.2.1.trans (by decide), h.2.2 evX (by decide)⟩

/-! ## updateEvidence lemmas -/

theorem lookupLastBy_eq_none (getId : α → String) (i : String) :
    ∀ l : List α, (∀ y ∈ l, (getId y == i) = false) → lookupLastBy getId l i = none := by
  intro l
  induction l with
  | nil => intro _; rfl
  | cons x t ih =>
    intro h
    rw [lookupLastBy, ih (fun y hy => h y (List.mem_cons_of_mem x hy)),
      if_neg (by rw [h x (List.mem_cons_self x t)]; simp)]

theorem lookupLastBy_putBy (getId : α → String) (l : List α) (x : α) :
    lookupLastBy getId (putBy getId l x) (getId x) = some x := by
  rw [putBy]
  by_cases hany : l.any (fun y => getId y == getId x) = true
  · rw [if_pos hany]
    induction l with
    | nil => cases hany
    | cons y t ih =>
      rw [List.map_cons, lookupLastBy]
      by_cases hta : t.any (fun z => getId z == getId x) = true
      · rw [ih hta]
      · have hnone : lookupLastBy getId
            (t.map (fun z => if getId z == getId x then x else z)) (getId x) = none := by
          apply lookupLastBy_eq_none
          intro z hz
          rw [List.mem_map] at hz
          obtain ⟨w, hw, rfl⟩ := hz
          have hwne : (getId w == getId x) = false := by
            cases hb : (getId w == getId x) with
            | false => rfl
            | true => exact absurd (List.any_eq_true.mpr ⟨w, hw, hb⟩) hta
          rw [if_neg (by rw [hwne]; simp)]
          exact hwne
        rw [hnone]
        have hy : (getId y == getId x) = true := by
          rw [List.any_cons] at hany
          cases hb : (getId y == getId x) with
          | true => rfl
          | false =>
            rw [hb, Bool.false_or] at hany
            exact absurd hany hta
        rw [if_pos hy, if_pos (by simp)]
  · rw [if_neg hany]
    induction l with
    | nil => simp [lookupLastBy]
    | cons y t ih =>
      rw [List.cons_append, lookupLastBy,
        ih (by rw [List.any_cons] at hany; intro h; exact hany (by rw [h]; simp))]

/-- Counterexample to C9 as stated: `updateEvidence` overwrites the stored
record with its argument, so a call whose argument carries a different
`sha512` changes the stored digest. -/
theorem updateEvidence_can_alter_digest :
    (getEvidenceById ⟨[mkEv "e1" "n.pdf" "aa"], [], none⟩ "e1").map Evidence.sha512 =
      some "aa" ∧
    (getEvidenceById
        (updateEvidence ⟨[mkEv "e1" "n.pdf" "aa"], [], none⟩ (mkEv "e1" "n.pdf" "bb"))
        "e1").map Evidence.sha512 = some "bb" ∧
    ("bb" : String) ≠ "aa" := by
  refine ⟨rfl, rfl, by decide⟩

/-- C9 amended: `updateEvidence` stores exactly the record passed to it, so
the digest is preserved precisely when the caller passes a record carrying
the stored digest (as the intended extracted-text-attachment usage does). -/
theorem updateEvidence_stores_argument (s : VerumStore) (ev old : Evidence)
    (hold : getEvidenceById s ev.id = some old) :
    getEvidenceById (updateEvidence s ev) ev.id = some ev ∧
    (ev.sha512 = old.sha512 →
      (getEvidenceById (updateEvidence s ev) ev.id).map Evidence.sha512 =
        (getEvidenceById s ev.id).map Evidence.sha512) := by
  have h1 : getEvidenceById (updateEvidence s ev) ev.id = some ev :=
    lookupLastBy_putBy Evidence.id s.evidence ev
  refine ⟨h1, fun hsha => ?_⟩
  rw [h1, hold]
  simp [hsha]

/-- Witness for the amended C9: attaching text without touching the digest. -/
theorem updateEvidence_stores_argument_witness :
    getEvidenceById
        (updateEvidence ⟨[mkEv "e1" "n.pdf" "aa"], [], none⟩
          (mkEv "e1" "n.pdf" "aa" (some "text")))
        "e1" = some (mkEv "e1" "n.pdf" "aa" (some "text")) ∧
    (getEvidenceById
        (updateEvidence ⟨[mkEv "e1" "n.pdf" "aa"], [], none⟩
          (mkEv "e1" "n.pdf" "aa" (some "text")))
        "e1").map Evidence.sha512 =
      (getEvidenceById (⟨[mkEv "e1" "n.pdf" "aa"], [], none⟩ : VerumStore)
        "e1").map Evidence.sha512 := by
  have h := updateEvidence_stores_argument ⟨[mkEv "e1" "n.pdf" "aa"], [], none⟩
    (mkEv "e1" "n.pdf" "aa" (some "text")) (mkEv "e1" "n.pdf" "aa") (by decide)
  exact ⟨h.1, h.2 rfl⟩

/-! ## Detector record shapes -/

theorem metadataContrs_type {e : Evidence} {c : RawContradiction}
    (h : c ∈ metadataContrs e) : c.type = ContradictionType.metadata_mismatch := by
  rw [metadataContrs, List.mem_filterMap] at h
  obtain ⟨md, _, hmd⟩ := h
  by_cases hf : e.createdAt < jsDateMs md
  · rw [if_pos hf] at hmd; cases hmd; rfl
  · rw [if_neg hf] at hmd; cases hmd

theorem omissionContrs_type {sc : List Evidence} {e : Evidence} {c : RawContradiction}
    (h : c ∈ omissionContrs sc e) : c.type = ContradictionType.omission := by
  rw [omissionContrs, List.mem_filterMap] at h
  obtain ⟨tok, _, htok⟩ := h
  by_cases hf : (sc.any fun ev =>
      containsSub (tok.map Char.toLower) (lowerName ev.name)) = true
  · rw [if_pos hf] at htok; cases htok
  · rw [if_neg hf] at htok; cases htok; rfl

/-- The metadata/omission block of a pass contains no drift records. -/
theorem textBlock_no_drift (scope : List Evidence) :
    ((scope.filter hasText).flatMap
        (fun e => metadataContrs e ++ omissionContrs scope e)).filter isDriftType = [] := by
  rw [List.filter_eq_nil_iff]
  intro c hc
  rw [List.mem_flatMap] at hc
  obtain ⟨e, _, hce⟩ := hc
  rw [List.mem_append] at hce
  rcases hce with h | h
  · simp [isDriftType, metadataContrs_type h]
  · simp [isDriftType, omissionContrs_type h]

/-! ## Empty and tiny scopes (C6) -/

theorem addRefs_nil_evidence (refs : List EvidenceRef) :
    ∀ acc, addRefs [] acc refs = acc := by
  induction refs with
  | nil => intro acc; rfl
  | cons r t ih => intro acc; exact ih acc

theorem scopeOf_nil_evidence (rs : List Report) : scopeOf rs [] = [] := by
  suffices h : ∀ acc : List Evidence,
      rs.foldl (fun acc r => addRefs [] acc r.evidenceRefs) acc = acc by
    exact h []
  induction rs with
  | nil => intro acc; rfl
  | cons r t ih =>
    intro acc
    rw [List.foldl_cons, addRefs_nil_evidence]
    exact ih acc

/-- Counterexample to C6 as stated: a single text-bearing evidence item in
scope already produces a (metadata-mismatch) contradiction, so a scope with
fewer than two items does not always yield an empty result. -/
theorem small_scope_nonempty_counterexample :
    (scopeOf [repNote] [evNote]).length = 1 ∧
    analyzeContradictionsOnce [repNote] [evNote] ≠ [] ∧
    runContradictionAnalysis [repNote] [evNote] [repNote] [evNote]
      [repNote] [evNote] ≠ [] := by
  refine ⟨rfl, by decide, by decide⟩

/-- C6 amended: an empty evidence scope (in particular an empty evidence
list) yields an empty result, and a scope with fewer than two items yields no
cross-document-drift contradictions; single-item scopes may still produce
metadata-mismatch or omission records. No case is an error (the engine is a
total function in the model). -/
theorem contradiction_engine_small_scope (rs r1 r2 r3 : List Report)
    (es : List Evidence) :
    (scopeOf rs es = [] → analyzeContradictionsOnce rs es = []) ∧
    ((scopeOf rs es).length < 2 →
      (analyzeContradictionsOnce rs es).filter isDriftType = []) ∧
    runContradictionAnalysis r1 [] r2 [] r3 [] = [] := by
  refine ⟨?_, ?_, ?_⟩
  · intro h
    rw [analyzeContradictionsOnce, h]
    rfl
  · intro h
    rw [analyzeContradictionsOnce]
    cases hs : scopeOf rs es with
    | nil =>
      rw [List.filter_append, textBlock_no_drift]
      rfl
    | cons x t =>
      cases t with
      | nil =>
        rw [List.filter_append, textBlock_no_drift]
        rfl
      | cons y u =>
        rw [hs] at h
        simp only [List.length_cons] at h
        omega
  · have h1 : analyzeContradictionsOnce r1 [] = [] := by
      rw [analyzeContradictionsOnce, scopeOf_nil_evidence]; rfl
    have h2 : analyzeContradictionsOnce r2 [] = [] := by
      rw [analyzeContradictionsOnce, scopeOf_nil_evidence]; rfl
    have h3 : analyzeContradictionsOnce r3 [] = [] := by
      rw [analyzeContradictionsOnce, scopeOf_nil_evidence]; rfl
    rw [runContradictionAnalysis, h1, h2, h3]
    rfl

/-- Witness for the amended C6 at a one-element scope. -/
theorem contradiction_engine_small_scope_witness :
    (analyzeContradictionsOnce [repNote] [evNote]).filter isDriftType = [] ∧
    runContradictionAnalysis [] [] [] [] [] [] = [] := by
  have h := contradiction_engine_small_scope [repNote] [] [] [] [evNote]
  exact ⟨h.2.1 (by decide), h.2.2⟩

/-! ## Shuffle sensitivity of the de-duplication key (C2) -/

/-- C2 fails on the code: the drift explanation embeds the two file names in
scope order, so permuting the input reports changes the de-duplication key
set; a run whose passes happen to see different orders even produces two
records for the same logical finding instead of one. -/
theorem contradiction_keys_not_shuffle_invariant :
    ([repRefB, repRefA] : List Report).Perm [repRefA, repRefB] ∧
    (runContradictionAnalysis [repRefA, repRefB] esAB [repRefA, repRefB] esAB
        [repRefA, repRefB] esAB).map (fun c => keyOf c.toRawContradiction) ≠
      (runContradictionAnalysis [repRefB, repRefA] esAB [repRefB, repRefA] esAB
        [repRefB, repRefA] esAB).map (fun c => keyOf c.toRawContradiction) ∧
    (runContradictionAnalysis [repRefA, repRefB] esAB [repRefA, repRefB] esAB
      [repRefA, repRefB] esAB).length = 1 ∧
    (runContradictionAnalysis [repRefB, repRefA] esAB [repRefA, repRefB] esAB
      [repRefA, repRefB] esAB).length = 2 := by
  exact ⟨List.Perm.swap repRefA repRefB [], by decide, by decide, by decide⟩

/-! ## Scope construction lemmas -/

theorem addToScope_nodup {acc : List Evidence}
    (h : (acc.map Evidence.id).Nodup) (ev : Evidence) :
    ((addToScope acc ev).map Evidence.id).Nodup := by
  rw [addToScope]
  by_cases hany : acc.any (fun e => e.id == ev.id) = true
  · rw [if_pos hany]; exact h
  · rw [if_neg hany, List.map_append, List.nodup_append]
    refine ⟨h, List.nodup_singleton _, ?_⟩
    intro i hi hi'
    simp only [List.map_cons, List.map_nil, List.mem_cons, List.not_mem_nil,
      or_false] at hi'
    subst hi'
    rw [List.mem_map] at hi
    obtain ⟨e, he, heq⟩ := hi
    exact hany (List.any_eq_true.mpr ⟨e, he, by rw [heq]; simp⟩)

theorem addRefs_cons (el acc : List Evidence) (r : EvidenceRef) (t : List EvidenceRef) :
    addRefs el acc (r :: t) =
      addRefs el
        (match lookupLastBy Evidence.id el r.id with
         | some ev => addToScope acc ev
         | none => acc) t := rfl

theorem addRefs_nodup (el : List Evidence) (refs : List EvidenceRef) :
    ∀ acc, (acc.map Evidence.id).Nodup →
      ((addRefs el acc refs).map Evidence.id).Nodup := by
  induction refs with
  | nil => intro acc h; exact h
  | cons r t ih =>
    intro acc h
    rw [addRefs_cons]
    cases hl : lookupLastBy Evidence.id el r.id with
    | some ev => exact ih _ (addToScope_nodup h ev)
    | none => exact ih _ h

/-- The ids of the evidence scope are pairwise distinct. -/
theorem scopeOf_nodup (rs : List Report) (es : List Evidence) :
    ((scopeOf rs es).map Evidence.id).Nodup := by
  suffices h : ∀ acc, (acc.map Evidence.id).Nodup →
      ((rs.foldl (fun acc r => addRefs es acc r.evidenceRefs) acc).map
        Evidence.id).Nodup by
    exact h [] List.nodup_nil
  induction rs with
  | nil => intro acc h; exact h
  | cons r t ih =>
    intro acc h
    rw [List.foldl_cons]
    exact ih _ (addRefs_nodup es r.evidenceRefs acc h)

/-! ## Counting cross-document-drift records (C5) -/

theorem isDriftOn_mkDrift_iff {a b : String} {x y : Evidence} :
    isDriftOn a b (mkDrift x y) = true ↔
      ((x.id = a ∧ y.id = b) ∨ (x.id = b ∧ y.id = a)) := by
  rw [isDriftOn]
  show (ContradictionType.cross_doc_drift == ContradictionType.cross_doc_drift &&
    sortStrings [x.id, y.id] == sortStrings [a, b]) = true ↔ _
  simp only [Bool.and_eq_true, beq_iff_eq, beq_self_eq_true, true_and]
  exact sortStrings_pair_eq_iff

theorem driftPair_countFn (P : RawContradiction → Bool) (x y : Evidence) :
    ((driftPair x y).map P).getD false = (driftCond x y && P (mkDrift x y)) := by
  cases h : driftCond x y with
  | true => simp [driftPair, h]
  | false => simp [driftPair, h]

/-- No drift record of the pair `{a, b}` arises from a scope none of whose
elements carries id `a`. -/
theorem driftPairs_countP_zero_fst {a b : String} :
    ∀ scope : List Evidence, (∀ e ∈ scope, e.id ≠ a) →
      (driftPairs scope).countP (isDriftOn a b) = 0 := by
  intro scope
  induction scope with
  | nil => intro _; rfl
  | cons x t ih =>
    intro h
    rw [driftPairs, List.countP_append,
      ih (fun e he => h e (List.mem_cons_of_mem x he)), countP_filterMap_opt]
    rw [Nat.add_zero, List.countP_eq_zero]
    intro y hy
    rw [driftPair_countFn]
    intro hcontra
    rw [Bool.and_eq_true] at hcontra
    rcases isDriftOn_mkDrift_iff.mp hcontra.2 with ⟨h1, _⟩ | ⟨_, h2⟩
    · exact h x (List.mem_cons_self x t) h1
    · exact h y (List.mem_cons_of_mem x hy) h2

/-- Symmetric zero lemma: no element carries id `b`. -/
theorem driftPairs_countP_zero_snd {a b : String} :
    ∀ scope : List Evidence, (∀ e ∈ scope, e.id ≠ b) →
      (driftPairs scope).countP (isDriftOn a b) = 0 := by
  intro scope
  induction scope with
  | nil => intro _; rfl
  | cons x t ih =>
    intro h
    rw [driftPairs, List.countP_append,
      ih (fun e he => h e (List.mem_cons_of_mem x he)), countP_filterMap_opt]
    rw [Nat.add_zero, List.countP_eq_zero]
    intro y hy
    rw [driftPair_countFn]
    intro hcontra
    rw [Bool.and_eq_true] at hcontra
    rcases isDriftOn_mkDrift_iff.mp hcontra.2 with ⟨_, h2⟩ | ⟨h1, _⟩
    · exact h y (List.mem_cons_of_mem x hy) h2
    · exact h x (List.mem_cons_self x t) h1

theorem beqComm [BEq α] [LawfulBEq α] (a b : α) : (a == b) = (b == a) := by
  by_cases h : a = b
  · subst h; rfl
  · rw [beq_eq_false_iff_ne.mpr h, beq_eq_false_iff_ne.mpr (Ne.symm h)]

/-- The drift condition is symmetric in its two arguments. -/
theorem driftCond_symm (a b : Evidence) : driftCond a b = driftCond b a := by
  rw [driftCond, driftCond, Bool.or_comm, beqComm (normName a) (normName b),
    beqComm a.sha512 b.sha512]

/-- The pair loop of a single pass emits the drift record for the unordered
pair `{A, B}` exactly once when the drift condition holds for it, and never
otherwise. -/
theorem driftPairs_countP_pair {A B : Evidence} (hne : A.id ≠ B.id) :
    ∀ scope : List Evidence, (scope.map Evidence.id).Nodup →
      A ∈ scope → B ∈ scope →
      (driftPairs scope).countP (isDriftOn A.id B.id) =
        (if driftCond A B = true then 1 else 0) := by
  intro scope
  induction scope with
  | nil => intro _ hA _; cases hA
  | cons x t ih =>
    intro hnd0 hA hB
    have hinj : ∀ {u v : Evidence}, u ∈ x :: t → v ∈ x :: t → u.id = v.id → u = v :=
      fun hu hv huv => nodup_map_mem_inj hnd0 hu hv huv
    rw [List.map_cons, List.nodup_cons] at hnd0
    rw [driftPairs, List.countP_append, countP_filterMap_opt]
    by_cases hxA : x = A
    · subst hxA
      have hBt : B ∈ t := by
        rcases List.mem_cons.mp hB with h | h
        · exact absurd (h ▸ rfl : B.id = x.id) fun hh => hne hh.symm
        · exact h
      have htz : (driftPairs t).countP (isDriftOn x.id B.id) = 0 := by
        apply driftPairs_countP_zero_fst
        intro e he heq
        exact hnd0.1 (heq ▸ List.mem_map_of_mem Evidence.id he)
      rw [htz, Nat.add_zero]
      have hcongr : t.countP
            (fun y => ((driftPair x y).map (isDriftOn x.id B.id)).getD false) =
          t.countP (fun y => (y == B) && driftCond x B) := by
        apply List.countP_congr
        intro y hy
        rw [driftPair_countFn]
        by_cases hyB : y = B
        · subst hyB
          have hP : isDriftOn x.id y.id (mkDrift x y) = true :=
            isDriftOn_mkDrift_iff.mpr (.inl ⟨rfl, rfl⟩)
          rw [hP]
          simp [Bool.and_comm]
        · have hP : isDriftOn x.id B.id (mkDrift x y) = false := by
            cases hPb : isDriftOn x.id B.id (mkDrift x y) with
            | false => rfl
            | true =>
              rcases isDriftOn_mkDrift_iff.mp hPb with ⟨_, h2⟩ | ⟨h1, _⟩
              · exact absurd (hinj (List.mem_cons_of_mem _ hy) hB h2) hyB
              · exact absurd h1 hne
          rw [hP, beq_eq_false_iff_ne.mpr hyB]
          simp
      rw [hcongr]
      cases hc : driftCond x B with
      | true =>
        simp only [Bool.and_true, if_pos]
        rw [← List.count_eq_countP]
        exact List.count_eq_one_of_mem (List.Nodup.of_map _ hnd0.2) hBt
      | false =>
        simp only [Bool.and_false]
        simp [List.countP_eq_zero]
    · by_cases hxB : x = B
      · subst hxB
        have hAt : A ∈ t := by
          rcases List.mem_cons.mp hA with h | h
          · exact absurd h fun hh => hxA hh.symm
          · exact h
        have htz : (driftPairs t).countP (isDriftOn A.id x.id) = 0 := by
          apply driftPairs_countP_zero_snd
          intro e he heq
          exact hnd0.1 (heq ▸ List.mem_map_of_mem Evidence.id he)
        rw [htz, Nat.add_zero]
        have hcongr : t.countP
              (fun y => ((driftPair x y).map (isDriftOn A.id x.id)).getD false) =
            t.countP (fun y => (y == A) && driftCond A x) := by
          apply List.countP_congr
          intro y hy
          rw [driftPair_countFn]
          by_cases hyA : y = A
          · subst hyA
            have hP : isDriftOn y.id x.id (mkDrift x y) = true :=
              isDriftOn_mkDrift_iff.mpr (.inr ⟨rfl, rfl⟩)
            rw [hP, driftCond_symm x y]
            simp [Bool.and_comm]
          · have hP : isDriftOn A.id x.id (mkDrift x y) = false := by
              cases hPb : isDriftOn A.id x.id (mkDrift x y) with
              | false => rfl
              | true =>
                rcases isDriftOn_mkDrift_iff.mp hPb with ⟨h1, _⟩ | ⟨_, h2⟩
                · exact absurd h1.symm hne
                · exact absurd (hinj (List.mem_cons_of_mem _ hy) hA h2) hyA
            rw [hP, beq_eq_false_iff_ne.mpr hyA]
            simp
        rw [hcongr]
        cases hc : driftCond A x with
        | true =>
          simp only [Bool.and_true, if_pos]
          rw [← List.count_eq_countP]
          exact List.count_eq_one_of_mem (List.Nodup.of_map _ hnd0.2) hAt
        | false =>
          simp only [Bool.and_false]
          simp [List.countP_eq_zero]
      · have hAt : A ∈ t := by
          rcases List.mem_cons.mp hA with h | h
          · exact absurd h fun hh => hxA hh.symm
          · exact h
        have hBt : B ∈ t := by
          rcases List.mem_cons.mp hB with h | h
          · exact absurd h fun hh => hxB hh.symm
          · exact h
        have hz : t.countP
            (fun y => ((driftPair x y).map (isDriftOn A.id B.id)).getD false) = 0 := by
          rw [List.countP_eq_zero]
          intro y hy
          rw [driftPair_countFn]
          intro hcontra
          rw [Bool.and_eq_true] at hcontra
          rcases isDriftOn_mkDrift_iff.mp hcontra.2 with ⟨h1, _⟩ | ⟨h1, _⟩
          · exact hxA (hinj (List.mem_cons_self x t) hA h1)
          · exact hxB (hinj (List.mem_cons_self x t) hB h1)
        rw [hz, Nat.zero_add]
        exact ih hnd0.2 hAt hBt

/-- The metadata/omission block contributes no records matching `isDriftOn`. -/
theorem textBlock_countP_isDriftOn (a b : String) (scope : List Evidence) :
    ((scope.filter hasText).flatMap
        (fun e => metadataContrs e ++ omissionContrs scope e)).countP (isDriftOn a b)
      = 0 := by
  rw [List.countP_eq_zero]
  intro c hc
  rw [List.mem_flatMap] at hc
  obtain ⟨e, _, hce⟩ := hc
  rw [List.mem_append] at hce
  intro habs
  rw [isDriftOn, Bool.and_eq_true, beq_iff_eq] at habs
  rcases hce with h | h
  · rw [metadataContrs_type h] at habs
    exact ContradictionType.noConfusion habs.1
  · rw [omissionContrs_type h] at habs
    exact ContradictionType.noConfusion habs.1

/-- The drift condition at the two concrete statement file names reduces to
the digest comparison. -/
theorem driftCond_statement_pair {A B : Evidence}
    (hnameA : A.name = "statement.pdf") (hnameB : B.name = "statement_v2.pdf") :
    driftCond A B = !(A.sha512 == B.sha512) := by
  have e1 : containsSub (stripExt (lowerName "statement_v2.pdf"))
      (stripExt (lowerName "statement.pdf")) = false := by decide
  have e2 : containsSub (stripExt (lowerName "statement.pdf"))
      (stripExt (lowerName "statement_v2.pdf")) = true := by decide
  have e3 : (stripExt (lowerName "statement.pdf") ==
      stripExt (lowerName "statement_v2.pdf")) = false := by decide
  rw [driftCond, normName, normName, hnameA, hnameB, e1, e2, e3]
  simp

/-- C5. A scope containing "statement.pdf" and "statement_v2.pdf" produces,
per detector pass, exactly one cross-document-drift record whose sources are
exactly that pair of ids when the digests differ, and none when they agree. -/
theorem cross_doc_drift_pair_spec (rs : List Report) (es : List Evidence)
    (A B : Evidence) (hA : A ∈ scopeOf rs es) (hB : B ∈ scopeOf rs es)
    (hnameA : A.name = "statement.pdf") (hnameB : B.name = "statement_v2.pdf") :
    (A.sha512 ≠ B.sha512 →
      (analyzeContradictionsOnce rs es).countP (isDriftOn A.id B.id) = 1) ∧
    (A.sha512 = B.sha512 →
      (analyzeContradictionsOnce rs es).countP (isDriftOn A.id B.id) = 0) := by
  have hnd := scopeOf_nodup rs es
  have hABne : A ≠ B := fun h => by
    rw [h, hnameB] at hnameA
    exact absurd hnameA (by decide)
  have hne : A.id ≠ B.id := fun h => hABne (nodup_map_mem_inj hnd hA hB h)
  have hcount : (analyzeContradictionsOnce rs es).countP (isDriftOn A.id B.id) =
      (if driftCond A B = true then 1 else 0) := by
    rw [analyzeContradictionsOnce, List.countP_append,
      textBlock_countP_isDriftOn, Nat.add_zero,
      driftPairs_countP_pair hne (scopeOf rs es) hnd hA hB]
  constructor
  · intro hsha
    rw [hcount, driftCond_statement_pair hnameA hnameB,
      beq_eq_false_iff_ne.mpr hsha]
    rfl
  · intro hsha
    rw [hcount, driftCond_statement_pair hnameA hnameB, beq_iff_eq.mpr hsha]
    rfl

/-- Witness for C5: the differing-digest pair yields one drift record, the
equal-digest pair yields none. -/
theorem cross_doc_drift_pair_spec_witness :
    (analyzeContradictionsOnce [repRefAB] esAB).countP
        (isDriftOn evStatement.id evStatementV2.id) = 1 ∧
    (analyzeContradictionsOnce [repRefAB] [evStatement, evStatementV2Same]).countP
        (isDriftOn evStatement.id evStatementV2Same.id) = 0 := by
  have h1 := cross_doc_drift_pair_spec [repRefAB] esAB evStatement evStatementV2
    (by decide) (by decide) rfl rfl
  have h2 := cross_doc_drift_pair_spec [repRefAB] [evStatement, evStatementV2Same]
    evStatement evStatementV2Same (by decide) (by decide) rfl rfl
  exact ⟨h1.1 (by decide), h2.2 rfl⟩

/-! ## Counting metadata-mismatch records (C7, C10) -/

theorem metadataContrs_sources {e : Evidence} {c : RawContradiction}
    (h : c ∈ metadataContrs e) : c.sources = [e.id] := by
  rw [metadataContrs, List.mem_filterMap] at h
  obtain ⟨md, _, hmd⟩ := h
  by_cases hf : e.createdAt < jsDateMs md
  · rw [if_pos hf] at hmd; cases hmd; rfl
  · rw [if_neg hf] at hmd; cases hmd

theorem metadataContrs_countP_self (e : Evidence) :
    (metadataContrs e).countP (isMetaOn e.id) =
      (extractDates (e.ocrText.getD "")).countP (isFutureDate e.createdAt) := by
  rw [metadataContrs, countP_filterMap_opt]
  apply List.countP_congr
  intro md _
  by_cases h : e.createdAt < jsDateMs md
  · simp [h, isMetaOn, mkMetadataMismatch, isFutureDate]
  · simp [h, isFutureDate]

theorem metadataContrs_countP_other {e' : Evidence} {i : String} (hne : e'.id ≠ i) :
    (metadataContrs e').countP (isMetaOn i) = 0 := by
  rw [List.countP_eq_zero]
  intro c hc habs
  rw [isMetaOn, Bool.and_eq_true, beq_iff_eq, beq_iff_eq] at habs
  rw [metadataContrs_sources hc] at habs
  exact hne (List.cons_eq_cons.mp habs.2).1

theorem omissionContrs_countP_isMetaOn (sc : List Evidence) (e' : Evidence)
    (i : String) : (omissionContrs sc e').countP (isMetaOn i) = 0 := by
  rw [List.countP_eq_zero]
  intro c hc habs
  rw [isMetaOn, Bool.and_eq_true, beq_iff_eq] at habs
  rw [omissionContrs_type hc] at habs
  exact ContradictionType.noConfusion habs.1

theorem flatMap_countP_isMetaOn_zero (scope : List Evidence)
    (t : List Evidence) (i : String) (h : ∀ x ∈ t, x.id ≠ i) :
    (t.flatMap fun x => metadataContrs x ++ omissionContrs scope x).countP
      (isMetaOn i) = 0 := by
  rw [List.countP_eq_zero]
  intro c hc habs
  rw [List.mem_flatMap] at hc
  obtain ⟨x, hx, hcx⟩ := hc
  rw [List.mem_append] at hcx
  rw [isMetaOn, Bool.and_eq_true, beq_iff_eq, beq_iff_eq] at habs
  rcases hcx with hm | ho
  · rw [metadataContrs_sources hm] at habs
    exact h x hx (List.cons_eq_cons.mp habs.2).1
  · rw [omissionContrs_type ho] at habs
    exact ContradictionType.noConfusion habs.1

theorem flatMap_countP_isMetaOn (scope : List Evidence) :
    ∀ lst : List Evidence, (lst.map Evidence.id).Nodup → ∀ {e : Evidence}, e ∈ lst →
      (lst.flatMap fun x => metadataContrs x ++ omissionContrs scope x).countP
          (isMetaOn e.id) =
        (extractDates (e.ocrText.getD "")).countP (isFutureDate e.createdAt) := by
  intro lst
  induction lst with
  | nil => intro _ e he; cases he
  | cons x t ih =>
    intro hnd e he
    rw [List.map_cons, List.nodup_cons] at hnd
    rw [List.flatMap_cons, List.countP_append, List.countP_append]
    by_cases hex : e = x
    · subst hex
      have htz : (t.flatMap fun x => metadataContrs x ++ omissionContrs scope x).countP
          (isMetaOn e.id) = 0 := by
        apply flatMap_countP_isMetaOn_zero
        intro y hy heq
        exact hnd.1 (heq ▸ List.mem_map_of_mem Evidence.id hy)
      rw [htz, metadataContrs_countP_self, omissionContrs_countP_isMetaOn]
      omega
    · have het : e ∈ t := by
        rcases List.mem_cons.mp he with h | h
        · exact absurd h hex
        · exact h
      have hxne : x.id ≠ e.id := by
        intro heq
        exact hnd.1 (heq ▸ List.mem_map_of_mem Evidence.id het)
      rw [metadataContrs_countP_other hxne, omissionContrs_countP_isMetaOn,
        ih hnd.2 het]
      omega

theorem driftPairs_countP_isMetaOn (i : String) :
    ∀ scope : List Evidence, (driftPairs scope).countP (isMetaOn i) = 0 := by
  intro scope
  induction scope with
  | nil => rfl
  | cons x t ih =>
    rw [driftPairs, List.countP_append, ih, Nat.add_zero, List.countP_eq_zero]
    intro c hc habs
    rw [List.mem_filterMap] at hc
    obtain ⟨y, _, hy⟩ := hc
    rw [driftPair] at hy
    by_cases hcond : driftCond x y = true
    · rw [if_pos hcond] at hy
      cases hy
      rw [isMetaOn, Bool.and_eq_true, beq_iff_eq] at habs
      exact ContradictionType.noConfusion habs.1
    · rw [if_neg hcond] at hy
      cases hy

/-- The evidence `e` belongs to `textEvidence` under the C7 hypotheses. -/
theorem mem_textEvidence {rs : List Report} {es : List Evidence} {e : Evidence}
    {t : String} (he : e ∈ scopeOf rs es) (htext : e.ocrText = some t)
    (hnb : t.toList.any (fun c => !isJsSpace c) = true) :
    e ∈ (scopeOf rs es).filter hasText := by
  rw [List.mem_filter]
  refine ⟨he, ?_⟩
  rw [hasText, htext]
  exact hnb

/-- The total count of metadata-mismatch records citing `e` in one pass. -/
theorem analyzeOnce_countP_isMetaOn (rs : List Report) (es : List Evidence)
    (e : Evidence) (t : String) (he : e ∈ scopeOf rs es)
    (htext : e.ocrText = some t)
    (hnb : t.toList.any (fun c => !isJsSpace c) = true) :
    (analyzeContradictionsOnce rs es).countP (isMetaOn e.id) =
      (extractDates t).countP (isFutureDate e.createdAt) := by
  have hnd : (((scopeOf rs es).filter hasText).map Evidence.id).Nodup :=
    List.Nodup.sublist (List.Sublist.map _ (List.filter_sublist _))
      (scopeOf_nodup rs es)
  rw [analyzeContradictionsOnce, List.countP_append, driftPairs_countP_isMetaOn,
    Nat.zero_add,
    flatMap_countP_isMetaOn (scopeOf rs es) _ hnd (mem_textEvidence he htext hnb),
    htext]
  rfl

/-- C7. Per detector pass, the engine emits one metadata-mismatch record
citing `e` for every date mentioned in its extracted text strictly after its
creation time: at least one when such a date is mentioned, none when every
mentioned date is on or before the creation time. -/
theorem metadata_mismatch_spec (rs : List Report) (es : List Evidence)
    (e : Evidence) (t : String) (he : e ∈ scopeOf rs es)
    (htext : e.ocrText = some t)
    (hnb : t.toList.any (fun c => !isJsSpace c) = true) :
    (analyzeContradictionsOnce rs es).countP (isMetaOn e.id) =
      (extractDates t).countP (isFutureDate e.createdAt) ∧
    ((extractDates t).any (isFutureDate e.createdAt) = true →
      1 ≤ (analyzeContradictionsOnce rs es).countP (isMetaOn e.id)) ∧
    ((∀ md ∈ extractDates t, isFutureDate e.createdAt md = false) →
      (analyzeContradictionsOnce rs es).countP (isMetaOn e.id) = 0) := by
  have hcount := analyzeOnce_countP_isMetaOn rs es e t he htext hnb
  refine ⟨hcount, ?_, ?_⟩
  · intro hany
    rw [hcount]
    rw [List.any_eq_true] at hany
    obtain ⟨md, hmd, hfut⟩ := hany
    exact Nat.succ_le_of_lt (List.countP_pos_iff.mpr ⟨md, hmd, hfut⟩)
  · intro hall
    rw [hcount, List.countP_eq_zero]
    intro md hmd habs
    rw [hall md hmd] at habs
    cases habs

/-- Witness for C7: a future slash-form date yields one record, a past one
yields none. -/
theorem metadata_mismatch_spec_witness :
    (analyzeContradictionsOnce [repSlash] [evSlash]).countP (isMetaOn evSlash.id)
        = 1 ∧
    (analyzeContradictionsOnce [repPast] [evPast]).countP (isMetaOn evPast.id)
        = 0 := by
  have h1 := metadata_mismatch_spec [repSlash] [evSlash] evSlash "Due 3/14/2027 ok"
    (by decide) rfl (by decide)
  have h2 := metadata_mismatch_spec [repPast] [evPast] evPast "Due 3/14/1960 ok"
    (by decide) rfl (by decide)
  exact ⟨h1.1.trans (by decide), h2.2.2 (by decide)⟩

/-- C10. The metadata-mismatch detector recognizes only the numeric
slash-form month/day/four-digit-year pattern: a text with no such match
(e.g. the ISO or spelled-out forms of the same future date) produces no
metadata-mismatch contradiction, while the slash form does match. -/
theorem metadata_slash_format_only (rs : List Report) (es : List Evidence)
    (e : Evidence) (t : String) (he : e ∈ scopeOf rs es)
    (htext : e.ocrText = some t)
    (hnb : t.toList.any (fun c => !isJsSpace c) = true)
    (hnone : extractDates t = []) :
    (analyzeContradictionsOnce rs es).countP (isMetaOn e.id) = 0 ∧
    extractDates "Due 2027-03-14 ok" = [] ∧
    extractDates "Due 14 March 2027 ok" = [] ∧
    extractDates "Due 3/14/2027 ok" = [(3, 14, 2027)] := by
  refine ⟨?_, by decide, by decide, by decide⟩
  rw [analyzeOnce_countP_isMetaOn rs es e t he htext hnb, hnone]
  rfl

/-- Witness for C10: the ISO-form future date triggers nothing. -/
theorem metadata_slash_format_only_witness :
    (analyzeContradictionsOnce [repIso] [evIso]).countP (isMetaOn evIso.id) = 0 ∧
    (analyzeContradictionsOnce [repWords] [evWords]).countP (isMetaOn evWords.id)
      = 0 := by
  have h1 := metadata_slash_format_only [repIso] [evIso] evIso "Due 2027-03-14 ok"
    (by decide) rfl (by decide) (by decide)
  have h2 := metadata_slash_format_only [repWords] [evWords] evWords
    "Due 14 March 2027 ok" (by decide) rfl (by decide) (by decide)
  exact ⟨h1.1, h2.1⟩

/-! ## Reduction lemmas (C3) -/

theorem any_map_general (f : α → β) (p : β → Bool) :
    ∀ l : List α, (l.map f).any p = l.any (fun a => p (f a)) := by
  intro l
  induction l with
  | nil => rfl
  | cons x t ih => simp [List.any_cons, ih]

theorem contains_false_of_not_mem {l : List String} {a : String} (h : a ∉ l) :
    l.contains a = false := by
  cases hc : l.contains a
  · rfl
  · exact absurd (List.elem_iff.mp hc) h

theorem dedupFirstAux_countP_key (k : String) :
    ∀ (l : List (String × RawContradiction)) (seen : List String),
      (dedupFirstAux seen l).countP (fun p => p.1 == k) =
        if k ∈ seen then 0
        else if l.any (fun p => p.1 == k) then 1 else 0 := by
  intro l
  induction l with
  | nil =>
    intro seen
    by_cases h : k ∈ seen <;> simp [dedupFirstAux, h]
  | cons kc rest ih =>
    intro seen
    obtain ⟨k', c⟩ := kc
    rw [dedupFirstAux]
    by_cases hk' : k' ∈ seen
    · rw [if_pos (List.elem_iff.mpr hk'), ih seen, List.any_cons]
      by_cases hkk : k' = k
      · subst hkk
        simp [hk']
      · have hb : (k' == k) = false := beq_eq_false_iff_ne.mpr hkk
        simp only [hb, Bool.false_or]
    · rw [if_neg (by rw [contains_false_of_not_mem hk']; simp),
        List.countP_cons, ih (k' :: seen), List.any_cons]
      by_cases hkk : k' = k
      · subst hkk
        have hmem : k' ∈ k' :: seen := List.mem_cons_self k' seen
        simp [hk', hmem]
      · have hb : (k' == k) = false := beq_eq_false_iff_ne.mpr hkk
        by_cases hks : k ∈ seen
        · have hmem : k ∈ k' :: seen := List.mem_cons_of_mem _ hks
          simp [hb, hks, hmem]
        · have hmem : k ∉ k' :: seen := by
            rw [List.mem_cons]
            rintro (h | h)
            · exact hkk h.symm
            · exact hks h
          simp only [if_neg hmem, if_neg hks]
          rw [hb, Bool.false_or]
          simp

theorem mem_dedupFirstAux :
    ∀ {l : List (String × RawContradiction)} {seen : List String}
      {p : String × RawContradiction}, p ∈ dedupFirstAux seen l → p ∈ l := by
  intro l
  induction l with
  | nil => intro seen p h; cases h
  | cons kc rest ih =>
    intro seen p h
    rw [dedupFirstAux] at h
    by_cases hk : seen.contains kc.1 = true
    · rw [show (kc.1, kc.2) = kc from rfl, if_pos hk] at h
      exact List.mem_cons_of_mem _ (ih h)
    · rw [show (kc.1, kc.2) = kc from rfl, if_neg hk] at h
      rcases List.mem_cons.mp h with h | h
      · exact h ▸ List.mem_cons_self _ _
      · exact List.mem_cons_of_mem _ (ih h)

theorem keyed_fst (all : List RawContradiction) {p : String × RawContradiction}
    (hp : p ∈ all.map (fun c => (keyOf c, c))) : p.1 = keyOf p.2 := by
  rw [List.mem_map] at hp
  obtain ⟨c, _, rfl⟩ := hp
  rfl

theorem reduceContradictions_key_count (all : List RawContradiction) (k : String) :
    (reduceContradictions all).countP (fun c => keyOf c.toRawContradiction == k) =
      if all.any (fun c => keyOf c == k) then 1 else 0 := by
  rw [reduceContradictions, List.countP_map]
  have hcongr : (dedupFirstAux [] (all.map fun c => (keyOf c, c))).countP
        ((fun c => keyOf (Contradiction.toRawContradiction c) == k) ∘
          fun kc => ⟨kc.2, classifyTier
            ((all.map fun c => (keyOf c, c)).countP fun p => p.1 == kc.1)⟩) =
      (dedupFirstAux [] (all.map fun c => (keyOf c, c))).countP
        (fun p => p.1 == k) := by
    apply List.countP_congr
    intro p hp
    have := keyed_fst all (mem_dedupFirstAux hp)
    show (keyOf p.2 == k) = true ↔ (p.1 == k) = true
    rw [this]
  rw [hcongr, dedupFirstAux_countP_key k _ [],
    any_map_general (fun c => (keyOf c, c)) (fun p => p.1 == k) all]
  simp only [List.not_mem_nil, if_false]

theorem reduceContradictions_verification (all : List RawContradiction) :
    ∀ c ∈ reduceContradictions all,
      c.verification =
        classifyTier (all.countP (fun c2 => keyOf c2 == keyOf c.toRawContradiction)) := by
  intro c hc
  rw [reduceContradictions, List.mem_map] at hc
  obtain ⟨kc, hkc, rfl⟩ := hc
  have hfst : kc.1 = keyOf kc.2 := keyed_fst all (mem_dedupFirstAux hkc)
  show classifyTier ((all.map fun c => (keyOf c, c)).countP fun p => p.1 == kc.1) = _
  congr 1
  rw [List.countP_map, hfst]
  rfl

/-- C3. The reduction returns exactly one record per key occurring in the
three passes, and its tier follows the occurrence-count table: 3 occurrences
give "Verified (3/3)", 2 give "Consensus (2/3)", and at most 1 gives
"Inconclusive (≤1/3)". -/
theorem consensus_reduction_spec (r1 r2 r3 : List Report)
    (e1 e2 e3 : List Evidence) :
    (∀ k : String,
      (runContradictionAnalysis r1 e1 r2 e2 r3 e3).countP
          (fun c => keyOf c.toRawContradiction == k) =
        if (analyzeContradictionsOnce r1 e1 ++ analyzeContradictionsOnce r2 e2 ++
            analyzeContradictionsOnce r3 e3).any (fun c => keyOf c == k)
        then 1 else 0) ∧
    (∀ c ∈ runContradictionAnalysis r1 e1 r2 e2 r3 e3,
      ((analyzeContradictionsOnce r1 e1 ++ analyzeContradictionsOnce r2 e2 ++
          analyzeContradictionsOnce r3 e3).countP
            (fun c2 => keyOf c2 == keyOf c.toRawContradiction) = 3 →
        c.verification = "Verified (3/3)") ∧
      ((analyzeContradictionsOnce r1 e1 ++ analyzeContradictionsOnce r2 e2 ++
          analyzeContradictionsOnce r3 e3).countP
            (fun c2 => keyOf c2 == keyOf c.toRawContradiction) = 2 →
        c.verification = "Consensus (2/3)") ∧
      ((analyzeContradictionsOnce r1 e1 ++ analyzeContradictionsOnce r2 e2 ++
          analyzeContradictionsOnce r3 e3).countP
            (fun c2 => keyOf c2 == keyOf c.toRawContradiction) ≤ 1 →
        c.verification = "Inconclusive (≤1/3)")) := by
  constructor
  · intro k
    exact reduceContradictions_key_count _ k
  · intro c hc
    have hv := reduceContradictions_verification _ c hc
    refine ⟨fun h3 => ?_, fun h2 => ?_, fun h1 => ?_⟩
    · rw [hv, h3]
      rfl
    · rw [hv, h2]
      rfl
    · rw [hv, classifyTier, if_neg (by omega), if_neg (by omega)]

/-- Witness for C3 at a concrete single-finding input. -/
theorem consensus_reduction_spec_witness :
    (runContradictionAnalysis [repNote] [evNote] [repNote] [evNote]
        [repNote] [evNote]).countP
      (fun c => keyOf c.toRawContradiction == "nokey") = 0 ∧
    (Contradiction.mk (mkMetadataMismatch evNote (12, 31, 2099))
        "Verified (3/3)").verification = "Verified (3/3)" := by
  have h := consensus_reduction_spec [repNote] [repNote] [repNote]
    [evNote] [evNote] [evNote]
  refine ⟨(h.1 "nokey").trans (by decide), ?_⟩
  exact (h.2 (Contradiction.mk (mkMetadataMismatch evNote (12, 31, 2099))
    "Verified (3/3)") (by decide)).1 (by decide)
